import Mathlib

/-!
Shallow embedding of `epub2html.go` (package `main` of sysoleg/epub2html).

The Go program converts an EPUB container into a single HTML document.
Here we model its core pipeline: the path algebra (`normalizeEpubPath`,
`joinEpubPath`, `epubDir`, `resolveEpubPath`), the archive accessor
(`readZipFile`), the content rewriter (`extractRawHTML`, `renderNodeRaw`)
and the orchestrator (`processEpubContent`).  The zip archive is modelled
as an association list from entry names to byte lists; the external HTML
parser is modelled as an explicit function parameter.
-/

namespace Epub2Html

/-- Go `strings.ReplaceAll(p, "\\", "/")`, specialised to the two
single-character arguments used by `normalizeEpubPath`. -/
def slashify (p : String) : String :=
  String.mk (p.data.map (fun c => if c = '\\' then '/' else c))

/-- Split a character list at every slash, the way Go `path.Clean` scans
its input into segments.  The empty list yields one empty segment. -/
def splitSegs : List Char → List (List Char)
  | [] => [[]]
  | c :: rest =>
    if c = '/' then [] :: splitSegs rest
    else
      match splitSegs rest with
      | [] => [[c]]
      | s :: ss => (c :: s) :: ss

/-- Join segments back with slashes (inverse of `splitSegs` on clean data). -/
def joinSegs : List (List Char) → List Char
  | [] => []
  | [s] => s
  | s :: rest => s ++ '/' :: joinSegs rest

/-- The `..` path segment. -/
def dotdot : List Char := ['.', '.']

/-- One step of Go `path.Clean`'s element processing: a `..` segment pops
the previous segment when possible (for a rooted path a `..` with nothing
to pop is dropped; for a relative path it is kept), any other segment is
pushed. -/
def cleanStep (rooted : Bool) (acc : List (List Char)) (seg : List Char) :
    List (List Char) :=
  if seg = dotdot then
    if rooted then acc.dropLast
    else
      match acc.getLast? with
      | none => [dotdot]
      | some l => if l = dotdot then acc ++ [dotdot] else acc.dropLast
  else acc ++ [seg]

/-- A segment that `path.Clean` actually processes: not empty (double or
trailing slashes) and not the `.` segment. -/
def isRealSeg (s : List Char) : Bool := s != [] && s != ['.']

/-- Process all segments of a path through `cleanStep`. -/
def cleanSegs (rooted : Bool) (segs : List (List Char)) : List (List Char) :=
  (segs.filter isRealSeg).foldl (cleanStep rooted) []

/-- Whether a path's first byte is a slash (Go `path[0] == '/'`). -/
def isRooted (cs : List Char) : Bool :=
  match cs with
  | [] => false
  | c :: _ => c == '/'

/-- Go `path.Clean`: purely lexical cleaning of a slash-separated path.
A path is rooted when its first byte is a slash. -/
def goPathClean (p : String) : String :=
  if p = "" then "."
  else
    let rooted := isRooted p.data
    let stack := cleanSegs rooted (splitSegs p.data)
    if rooted then String.mk ('/' :: joinSegs stack)
    else if stack = [] then "."
    else String.mk (joinSegs stack)

/-- `normalizeEpubPath` from the source: backslashes to slashes, then
`path.Clean`, then `"."` is mapped to the empty string. -/
def normalizeEpubPath (p : String) : String :=
  let q := goPathClean (slashify p)
  if q = "." then "" else q

/-- Join a list of strings with single slashes between them. -/
def joinWithSlash : List String → String
  | [] => ""
  | [s] => s
  | s :: rest => s ++ "/" ++ joinWithSlash rest

/-- Go `path.Join`: drop empty elements, join with `/`, clean; all-empty
input yields the empty string. -/
def goPathJoin (elems : List String) : String :=
  let parts := elems.filter (fun e => e ≠ "")
  if parts = [] then ""
  else goPathClean (joinWithSlash parts)

/-- `joinEpubPath` from the source: filter empty elements, `path.Join`,
then `normalizeEpubPath`. -/
def joinEpubPath (elems : List String) : String :=
  if elems = [] then ""
  else
    let parts := elems.filter (fun e => e ≠ "")
    if parts = [] then ""
    else normalizeEpubPath (goPathJoin parts)

/-- Go `path.Dir`: the part of the path up to and including the final
slash, cleaned. -/
def goPathDir (p : String) : String :=
  let pre := (p.data.reverse.dropWhile (fun c => c ≠ '/')).reverse
  goPathClean (String.mk pre)

/-- `epubDir` from the source: normalize, take `path.Dir`, map `"."` to
the empty string. -/
def epubDir (p : String) : String :=
  let normalized := normalizeEpubPath p
  let dir := goPathDir normalized
  if dir = "." then "" else dir

/-- `resolveEpubPath` from the source: normalize both inputs, `path.Join`
them, normalize the result. -/
def resolveEpubPath (base rel : String) : String :=
  let b := normalizeEpubPath base
  let r := normalizeEpubPath rel
  normalizeEpubPath (goPathJoin [b, r])

/-! ## Archive accessor -/

/-- The two error shapes `readZipFile` can return: the path-traversal
rejection (before any lookup) and the entry-not-found failure. -/
inductive ZipError where
  | invalidPath (p : String)
  | notFound (p : String)
deriving DecidableEq

/-- A zip archive, modelled as its ordered list of entries: name and
content bytes (each byte a value below 256). -/
abbrev ZipArchive := List (String × List Nat)

/-- Go `strings.HasPrefix(s, "..")`: the first two bytes of `s` are
dots. -/
def hasDotDotPre (s : String) : Bool :=
  match s.data with
  | a :: b :: _ => a == '.' && b == '.'
  | _ => false

/-- `readZipFile` from the source: normalize, reject a leading `..`
before any lookup, otherwise return the first entry whose name equals
the normalized path exactly. -/
def readZipFile (files : ZipArchive) (filePath : String) :
    Except ZipError (List Nat) :=
  let cleanPath := normalizeEpubPath filePath
  if hasDotDotPre cleanPath then
    Except.error (ZipError.invalidPath filePath)
  else
    match files.find? (fun f => f.1 == cleanPath) with
    | some f => Except.ok f.2
    | none => Except.error (ZipError.notFound cleanPath)

/-! ## Manifest model -/

/-- A manifest `item` element from the OPF package: id, relative href,
media type. -/
structure Item where
  id : String
  href : String
  mediaType : String
deriving DecidableEq

/-- The fields of the parsed OPF package used by `processEpubContent`:
manifest items, spine idrefs in order, and the OPF file's directory. -/
structure Package where
  manifest : List Item
  spine : List String
  opfDir : String
deriving DecidableEq

/-- Lookup in an association list with Go map semantics: the last
insertion for a key wins. -/
def mapLookup {α : Type} (m : List (String × α)) (k : String) : Option α :=
  (m.reverse.find? (fun e => e.1 == k)).map (fun e => e.2)

/-- The `manifestIDMap` built by `processEpubContent`: id to archive path. -/
def manifestIDMap (pkg : Package) : List (String × String) :=
  pkg.manifest.map (fun item => (item.id, joinEpubPath [pkg.opfDir, item.href]))

/-- The `manifestHrefMap` built by `processEpubContent`: archive path to
manifest item. -/
def manifestHrefMap (pkg : Package) : List (String × Item) :=
  pkg.manifest.map (fun item => (joinEpubPath [pkg.opfDir, item.href], item))

/-! ## HTML escaping and base64 -/

/-- The escape of one character under `html.EscapeString` from
golang.org/x/net/html (six escaped characters). -/
def escapeChar (c : Char) : String :=
  if c = '&' then "&amp;"
  else if c = Char.ofNat 39 then "&#39;"
  else if c = '<' then "&lt;"
  else if c = '>' then "&gt;"
  else if c = '"' then "&#34;"
  else if c = '\r' then "&#13;"
  else String.singleton c

/-- `html.EscapeString`. -/
def escapeString (s : String) : String :=
  String.join (s.data.map escapeChar)

/-- The standard base64 alphabet character for a 6-bit value. -/
def base64Char (n : Nat) : Char :=
  (String.toList
    "ABCDEFGHIJKLMNOPQRSTUVWXYZabcdefghijklmnopqrstuvwxyz0123456789+/").getD
    n 'A'

/-- Go `base64.StdEncoding.EncodeToString` on a byte list (bytes are
taken mod 256, as Go's `byte` is an 8-bit integer). -/
def base64Encode : List Nat → String
  | [] => ""
  | [a] =>
    let a := a % 256
    String.mk [base64Char (a / 4), base64Char (a % 4 * 16), '=', '=']
  | [a, b] =>
    let a := a % 256
    let b := b % 256
    String.mk [base64Char (a / 4), base64Char (a % 4 * 16 + b / 16),
      base64Char (b % 16 * 4), '=']
  | a :: b :: c :: rest =>
    let x := a % 256
    let y := b % 256
    let z := c % 256
    String.mk [base64Char (x / 4), base64Char (x % 4 * 16 + y / 16),
      base64Char (y % 16 * 4 + z / 64), base64Char (z % 64)]
      ++ base64Encode rest

/-! ## HTML tree model

`html.Parse` produces a tree of nodes; the node kinds the rewriter
distinguishes are text, element, comment and doctype, plus the document
root.  Only document and element nodes carry children in a parsed tree. -/

/-- A parsed HTML node. -/
inductive HtmlNode where
  | text (data : String)
  | element (tag : String) (attrs : List (String × String))
      (children : List HtmlNode)
  | comment (data : String)
  | doctype (data : String)
  | document (children : List HtmlNode)

/-! ## Content rewriter -/

/-- The fixed tag denylist of `renderNodeRaw`. -/
def denylist : List String :=
  ["script", "style", "link", "meta", "head", "title", "svg"]

/-- The `src`-scanning loop of the `img` branch: return the value of the
first `src` attribute (empty string when there is none) and the
attribute list with that first occurrence removed. -/
def removeFirstSrc : List (String × String) → String × List (String × String)
  | [] => ("", [])
  | a :: rest =>
    if a.1 = "src" then (a.2, rest)
    else
      let p := removeFirstSrc rest
      (p.1, a :: p.2)

/-- The `img` branch of `renderNodeRaw`: compute the attribute list the
element is rendered with.  `none` models the early `return` on an image
read failure or a missing manifest entry, in which case nothing at all
is emitted for the element. -/
def imgFinalAttrs (files : ZipArchive) (contentFilePath : String)
    (hrefMap : List (String × Item)) (attrs : List (String × String)) :
    Option (List (String × String)) :=
  let p := removeFirstSrc attrs
  let src := p.1
  let rest := p.2
  if src = "" then some rest
  else
    let contentDir := epubDir contentFilePath
    let imagePath := resolveEpubPath contentDir src
    match readZipFile files imagePath with
    | Except.error _ => none
    | Except.ok imageData =>
      match mapLookup hrefMap imagePath with
      | none => none
      | some item =>
        some (rest ++
          [("src", "data:" ++ item.mediaType ++ ";base64," ++
            base64Encode imageData)])

/-- One attribute of the open tag: skipped when its key is `class`,
otherwise rendered with its markup-escaped value. -/
def attrString (a : String × String) : String :=
  if a.1 = "class" then ""
  else " " ++ a.1 ++ "=\x22" ++ escapeString a.2 ++ "\x22"

/-- The attribute loop of the open tag. -/
def attrsString : List (String × String) → String
  | [] => ""
  | a :: rest => attrString a ++ attrsString rest

/-- The open tag written by `renderNodeRaw`. -/
def openTagString (tag : String) (attrs : List (String × String)) : String :=
  "<" ++ tag ++ attrsString attrs ++ ">"

mutual

/-- `renderNodeRaw` from the source, as the string it writes. -/
def renderNodeRaw (files : ZipArchive) (contentFilePath : String)
    (hrefMap : List (String × Item)) : HtmlNode → String
  | HtmlNode.text data => escapeString data
  | HtmlNode.comment _ => ""
  | HtmlNode.doctype _ => ""
  | HtmlNode.document _ => ""
  | HtmlNode.element tag attrs children =>
    if tag ∈ denylist then ""
    else
      match
        (if tag = "img" then imgFinalAttrs files contentFilePath hrefMap attrs
         else some attrs) with
      | none => ""
      | some finalAttrs =>
        openTagString tag finalAttrs ++
          renderNodes files contentFilePath hrefMap children ++
          (if children.isEmpty && tag == "img" then ""
           else "</" ++ tag ++ ">")

/-- The child loop of `renderNodeRaw`. -/
def renderNodes (files : ZipArchive) (contentFilePath : String)
    (hrefMap : List (String × Item)) : List HtmlNode → String
  | [] => ""
  | n :: rest =>
    renderNodeRaw files contentFilePath hrefMap n ++
      renderNodes files contentFilePath hrefMap rest

end

mutual

/-- The body search of `extractRawHTML`: the first element in
depth-first preorder whose tag is `body`; returns its attributes and
children. -/
def findBody : HtmlNode → Option (List (String × String) × List HtmlNode)
  | HtmlNode.element tag attrs children =>
    if tag = "body" then some (attrs, children)
    else findBodyList children
  | HtmlNode.document children => findBodyList children
  | HtmlNode.text _ => none
  | HtmlNode.comment _ => none
  | HtmlNode.doctype _ => none

/-- The sibling loop of the body search. -/
def findBodyList : List HtmlNode → Option (List (String × String) × List HtmlNode)
  | [] => none
  | n :: rest =>
    match findBody n with
    | some b => some b
    | none => findBodyList rest

end

/-- `extractRawHTML` from the source: find the first `body` element and
render its children; without a body nothing is written. -/
def extractRawHTML (files : ZipArchive) (contentFilePath : String)
    (hrefMap : List (String × Item)) (n : HtmlNode) : String :=
  match findBody n with
  | some b => renderNodes files contentFilePath hrefMap b.2
  | none => ""

/-! ## Pipeline orchestrator

The HTML parser is an external collaborator (`html.Parse`); the
orchestrator is parameterised by it, with `none` modelling a parse
failure. -/

/-- One spine item of the loop in `processEpubContent`: a missing
manifest id, an unreadable content file or an unparsable document
contributes nothing; otherwise the rewritten body plus the separator. -/
def processItem (parse : List Nat → Option HtmlNode) (files : ZipArchive)
    (hrefMap : List (String × Item)) (idMap : List (String × String))
    (idref : String) : String :=
  match mapLookup idMap idref with
  | none => ""
  | some contentFilePath =>
    match readZipFile files contentFilePath with
    | Except.error _ => ""
    | Except.ok fileData =>
      match parse fileData with
      | none => ""
      | some doc =>
        extractRawHTML files contentFilePath hrefMap doc ++ "\n<hr />\n"

/-- The spine loop of `processEpubContent`. -/
def processSpine (parse : List Nat → Option HtmlNode) (files : ZipArchive)
    (hrefMap : List (String × Item)) (idMap : List (String × String)) :
    List String → String
  | [] => ""
  | idref :: rest =>
    processItem parse files hrefMap idMap idref ++
      processSpine parse files hrefMap idMap rest

/-- `processEpubContent` from the source: build both manifest maps, then
process every spine idref in order, concatenating the results. -/
def processEpubContent (parse : List Nat → Option HtmlNode) (pkg : Package)
    (files : ZipArchive) : String :=
  processSpine parse files (manifestHrefMap pkg) (manifestIDMap pkg) pkg.spine

/-! ## Presence of a body element (used to state the no-body claim) -/

mutual

/-- Whether a tree contains an element node whose tag is `body`. -/
def hasBodyElem : HtmlNode → Bool
  | HtmlNode.element tag _ children => tag == "body" || hasBodyElemList children
  | HtmlNode.document children => hasBodyElemList children
  | HtmlNode.text _ => false
  | HtmlNode.comment _ => false
  | HtmlNode.doctype _ => false

/-- Whether some tree in a list contains a `body` element. -/
def hasBodyElemList : List HtmlNode → Bool
  | [] => false
  | n :: rest => hasBodyElem n || hasBodyElemList rest

end

/-! ## Invariants of the clean stack (used to settle the path claims) -/

/-- A segment as it can occur on a clean stack: nonempty, not the `.`
segment, free of slashes and of backslashes. -/
def goodSeg (s : List Char) : Prop :=
  s ≠ [] ∧ s ≠ ['.'] ∧ '/' ∉ s ∧ '\\' ∉ s

/-- The invariant `cleanStep` maintains: every stack segment is good;
a rooted stack holds no `..` segment, and on a relative stack the `..`
segments form a prefix. -/
def goodStack (rooted : Bool) (st : List (List Char)) : Prop :=
  (∀ s ∈ st, goodSeg s) ∧
  (rooted = true → ∀ s ∈ st, s ≠ dotdot) ∧
  (rooted = false → ∃ k rest, st = List.replicate k dotdot ++ rest ∧
    ∀ s ∈ rest, s ≠ dotdot)

/-- The string `goPathClean` renders from its final stack. -/
def renderStack (rooted : Bool) (st : List (List Char)) : String :=
  if rooted then String.mk ('/' :: joinSegs st) else String.mk (joinSegs st)

/-! ## Basic lemmas -/

mutual

theorem findBody_eq_none_iff :
    ∀ n : HtmlNode, findBody n = none ↔ hasBodyElem n = false
  | HtmlNode.element tag attrs children => by
    by_cases h : tag = "body"
    · simp [findBody, hasBodyElem, h]
    · simp [findBody, hasBodyElem, h, findBodyList_eq_none_iff children]
  | HtmlNode.document children => by
    simp [findBody, hasBodyElem, findBodyList_eq_none_iff children]
  | HtmlNode.text d => by simp [findBody, hasBodyElem]
  | HtmlNode.comment d => by simp [findBody, hasBodyElem]
  | HtmlNode.doctype d => by simp [findBody, hasBodyElem]

theorem findBodyList_eq_none_iff :
    ∀ l : List HtmlNode, findBodyList l = none ↔ hasBodyElemList l = false
  | [] => by simp [findBodyList, hasBodyElemList]
  | n :: rest => by
    cases hf : findBody n with
    | none =>
      have hn : hasBodyElem n = false := (findBody_eq_none_iff n).mp hf
      simp [findBodyList, hf, hasBodyElemList, hn,
        findBodyList_eq_none_iff rest]
    | some b =>
      have hn : hasBodyElem n = true := by
        by_contra hc
        have := (findBody_eq_none_iff n).mpr (by simpa using hc)
        simp [this] at hf
      simp [findBodyList, hf, hasBodyElemList, hn]

end

/-! ## Lemmas on path segmentation -/

theorem splitSegs_ne_nil (cs : List Char) : splitSegs cs ≠ [] := by
  cases cs with
  | nil => simp [splitSegs]
  | cons c rest =>
    by_cases h : c = '/'
    · simp [splitSegs, h]
    · simp only [splitSegs, if_neg h]
      cases hsp : splitSegs rest with
      | nil => simp
      | cons s ss => simp

theorem splitSegs_noSlash {cs s : List Char} (hs : s ∈ splitSegs cs) :
    '/' ∉ s := by
  induction cs generalizing s with
  | nil =>
    simp [splitSegs] at hs
    simp [hs]
  | cons c rest ih =>
    by_cases h : c = '/'
    · rw [splitSegs, if_pos h] at hs
      rcases List.mem_cons.mp hs with rfl | hs
      · simp
      · exact ih hs
    · rw [splitSegs, if_neg h] at hs
      cases hsp : splitSegs rest with
      | nil => exact absurd hsp (splitSegs_ne_nil rest)
      | cons s0 ss =>
        rw [hsp] at hs
        rcases List.mem_cons.mp hs with rfl | hs
        · intro hmem
          rcases List.mem_cons.mp hmem with h' | h'
          · exact h h'.symm
          · exact ih (by rw [hsp]; exact List.mem_cons_self s0 ss) h'
        · exact ih (by rw [hsp]; exact List.mem_cons_of_mem s0 hs)

theorem splitSegs_chars {cs s : List Char} (hs : s ∈ splitSegs cs) :
    ∀ c ∈ s, c ∈ cs := by
  induction cs generalizing s with
  | nil =>
    simp [splitSegs] at hs
    simp [hs]
  | cons c rest ih =>
    by_cases h : c = '/'
    · rw [splitSegs, if_pos h] at hs
      rcases List.mem_cons.mp hs with rfl | hs
      · simp
      · exact fun x hx => List.mem_cons_of_mem c (ih hs x hx)
    · rw [splitSegs, if_neg h] at hs
      cases hsp : splitSegs rest with
      | nil => exact absurd hsp (splitSegs_ne_nil rest)
      | cons s0 ss =>
        rw [hsp] at hs
        rcases List.mem_cons.mp hs with rfl | hs
        · intro x hx
          rcases List.mem_cons.mp hx with rfl | hx
          · exact List.mem_cons_self x rest
          · exact List.mem_cons_of_mem c
              (ih (by rw [hsp]; exact List.mem_cons_self s0 ss) x hx)
        · exact fun x hx => List.mem_cons_of_mem c
            (ih (by rw [hsp]; exact List.mem_cons_of_mem s0 hs) x hx)

theorem splitSegs_append_slash (s : List Char) (cs : List Char)
    (h : '/' ∉ s) : splitSegs (s ++ '/' :: cs) = s :: splitSegs cs := by
  induction s with
  | nil => simp [splitSegs]
  | cons c s' ih =>
    have hc : c ≠ '/' := fun hc => h (hc ▸ List.mem_cons_self c s')
    have ih' := ih (fun hm => h (List.mem_cons_of_mem c hm))
    rw [List.cons_append, splitSegs, if_neg hc, ih']

theorem splitSegs_of_noSlash (s : List Char) (h : '/' ∉ s) :
    splitSegs s = [s] := by
  induction s with
  | nil => simp [splitSegs]
  | cons c s' ih =>
    have hc : c ≠ '/' := fun hc => h (hc ▸ List.mem_cons_self c s')
    have ih' := ih (fun hm => h (List.mem_cons_of_mem c hm))
    rw [splitSegs, if_neg hc, ih']

theorem splitSegs_joinSegs (st : List (List Char)) (hne : st ≠ [])
    (h : ∀ s ∈ st, '/' ∉ s) : splitSegs (joinSegs st) = st := by
  induction st with
  | nil => exact absurd rfl hne
  | cons s rest ih =>
    cases rest with
    | nil =>
      rw [joinSegs, splitSegs_of_noSlash s (h s (List.mem_cons_self s []))]
    | cons t r2 =>
      rw [joinSegs, splitSegs_append_slash s _ (h s (List.mem_cons_self s _)),
        ih (List.cons_ne_nil t r2) (fun x hx => h x (List.mem_cons_of_mem s hx))]
      exact fun hcontra => absurd hcontra (List.cons_ne_nil t r2)

/-! ## Lemmas on the clean stack -/

theorem goodSeg_dotdot : goodSeg dotdot := by
  refine ⟨by decide, by decide, by decide, by decide⟩

theorem goodStack_nil (rooted : Bool) : goodStack rooted [] :=
  ⟨by simp, fun _ => by simp, fun _ => ⟨0, [], by simp, by simp⟩⟩

theorem cleanStep_good (rooted : Bool) (acc : List (List Char))
    (seg : List Char) (hacc : goodStack rooted acc) (hseg : goodSeg seg) :
    goodStack rooted (cleanStep rooted acc seg) := by
  obtain ⟨hgood, hroot, hrel⟩ := hacc
  by_cases hdd : seg = dotdot
  · cases rooted with
    | true =>
      rw [cleanStep, if_pos hdd]
      simp only [if_pos rfl]
      exact ⟨fun s hs => hgood s (List.dropLast_subset acc hs),
        fun _ s hs => hroot rfl s (List.dropLast_subset acc hs),
        fun h => by simp at h⟩
    | false =>
      obtain ⟨k, rest, rfl, hrest⟩ := hrel rfl
      rw [cleanStep, if_pos hdd]
      simp only [Bool.false_eq_true, if_false]
      cases hlast : (List.replicate k dotdot ++ rest).getLast? with
      | none =>
        have hnil : List.replicate k dotdot ++ rest = [] :=
          List.getLast?_eq_none_iff.mp hlast
        refine ⟨fun s hs => ?_, fun h => by simp at h,
          fun _ => ⟨1, [], by simp, by simp⟩⟩
        have : s = dotdot := by
          rw [hnil] at hs
          simp at hs
          simp [hs]
        exact this ▸ goodSeg_dotdot
      | some l =>
        show goodStack false (if l = dotdot then
            List.replicate k dotdot ++ rest ++ [dotdot]
          else (List.replicate k dotdot ++ rest).dropLast)
        by_cases hl : l = dotdot
        · rw [if_pos hl]
          have hrestnil : rest = [] := by
            by_contra hrn
            have := List.getLast?_append_of_ne_nil (List.replicate k dotdot) hrn
            rw [hlast] at this
            obtain hmem := List.mem_of_mem_getLast? this.symm
            exact hrest l hmem hl
          subst hrestnil
          refine ⟨fun s hs => ?_, fun h => by simp at h,
            fun _ => ⟨k + 1, [], by
              rw [List.append_nil, List.append_nil, ← List.replicate_succ'],
              by simp⟩⟩
          rcases List.mem_append.mp hs with hs | hs
          · exact hgood s (by simpa using hs)
          · have : s = dotdot := by simpa using hs
            exact this ▸ goodSeg_dotdot
        · rw [if_neg hl]
          have hrestne : rest ≠ [] := by
            intro hrn
            subst hrn
            rw [List.append_nil] at hlast
            cases k with
            | zero => simp at hlast
            | succ j =>
              rw [List.getLast?_replicate] at hlast
              simp at hlast
              exact hl hlast.symm
          rw [List.dropLast_append_of_ne_nil (List.replicate k dotdot) hrestne]
          refine ⟨fun s hs => ?_, fun h => by simp at h,
            fun _ => ⟨k, rest.dropLast, rfl,
              fun s hs => hrest s (List.dropLast_subset rest hs)⟩⟩
          rcases List.mem_append.mp hs with hs | hs
          · exact hgood s (List.mem_append.mpr (Or.inl hs))
          · exact hgood s (List.mem_append.mpr
              (Or.inr (List.dropLast_subset rest hs)))
  · rw [cleanStep, if_neg hdd]
    refine ⟨fun s hs => ?_, fun h s hs => ?_, fun h => ?_⟩
    · rcases List.mem_append.mp hs with hs | hs
      · exact hgood s hs
      · have : s = seg := by simpa using hs
        exact this ▸ hseg
    · rcases List.mem_append.mp hs with hs | hs
      · exact hroot h s hs
      · have : s = seg := by simpa using hs
        exact this ▸ hdd
    · obtain ⟨k, rest, rfl, hrest⟩ := hrel h
      refine ⟨k, rest ++ [seg], by rw [List.append_assoc], fun s hs => ?_⟩
      rcases List.mem_append.mp hs with hs | hs
      · exact hrest s hs
      · have : s = seg := by simpa using hs
        exact this ▸ hdd

theorem foldl_cleanStep_good (rooted : Bool) (l : List (List Char))
    (acc : List (List Char)) (hacc : goodStack rooted acc)
    (hl : ∀ s ∈ l, goodSeg s) :
    goodStack rooted (l.foldl (cleanStep rooted) acc) := by
  induction l generalizing acc with
  | nil => exact hacc
  | cons s rest ih =>
    rw [List.foldl_cons]
    exact ih _ (cleanStep_good rooted acc s hacc (hl s (List.mem_cons_self s rest)))
      (fun t ht => hl t (List.mem_cons_of_mem s ht))

theorem cleanSegs_good (rooted : Bool) (segs : List (List Char))
    (h : ∀ s ∈ segs, '/' ∉ s ∧ '\\' ∉ s) :
    goodStack rooted (cleanSegs rooted segs) := by
  apply foldl_cleanStep_good rooted _ [] (goodStack_nil rooted)
  intro s hs
  obtain ⟨hmem, hreal⟩ := List.mem_filter.mp hs
  have hr : s ≠ [] ∧ s ≠ ['.'] := by
    simpa [isRealSeg] using hreal
  exact ⟨hr.1, hr.2, (h s hmem).1, (h s hmem).2⟩

theorem foldl_cleanStep_noDD (rooted : Bool) (l : List (List Char))
    (acc : List (List Char)) (h : ∀ s ∈ l, s ≠ dotdot) :
    l.foldl (cleanStep rooted) acc = acc ++ l := by
  induction l generalizing acc with
  | nil => rw [List.foldl_nil, List.append_nil]
  | cons s rest ih =>
    rw [List.foldl_cons, cleanStep, if_neg (h s (List.mem_cons_self s rest)),
      ih (acc ++ [s]) (fun t ht => h t (List.mem_cons_of_mem s ht)),
      List.append_assoc, List.singleton_append]

theorem foldl_cleanStep_ddPre (k i : Nat) :
    (List.replicate k dotdot).foldl (cleanStep false)
      (List.replicate i dotdot) = List.replicate (i + k) dotdot := by
  induction k generalizing i with
  | zero => simp
  | succ k ih =>
    rw [List.replicate_succ, List.foldl_cons]
    have hstep : cleanStep false (List.replicate i dotdot) dotdot =
        List.replicate (i + 1) dotdot := by
      rw [cleanStep, if_pos rfl]
      simp only [Bool.false_eq_true, if_false]
      cases i with
      | zero => simp
      | succ j =>
        have hl2 : (List.replicate (j + 1) dotdot).getLast? = some dotdot := by
          rw [List.replicate_succ', List.getLast?_concat]
        rw [hl2]
        show (if dotdot = dotdot then
            List.replicate (j + 1) dotdot ++ [dotdot]
          else (List.replicate (j + 1) dotdot).dropLast) =
          List.replicate (j + 1 + 1) dotdot
        rw [if_pos rfl, ← List.replicate_succ']
    rw [hstep, ih]
    congr 1
    omega

theorem foldl_cleanStep_self (rooted : Bool) (st : List (List Char))
    (h : goodStack rooted st) : st.foldl (cleanStep rooted) [] = st := by
  cases rooted with
  | true => rw [foldl_cleanStep_noDD true st [] (h.2.1 rfl), List.nil_append]
  | false =>
    obtain ⟨k, rest, rfl, hrest⟩ := h.2.2 rfl
    have h1 : (List.replicate k dotdot).foldl (cleanStep false) [] =
        List.replicate k dotdot := by
      have := foldl_cleanStep_ddPre k 0
      simpa using this
    rw [List.foldl_append, h1, foldl_cleanStep_noDD false rest _ hrest]

theorem joinSegs_singleton (s : List Char) : joinSegs [s] = s := rfl

theorem joinSegs_cons_cons (s t : List Char) (r2 : List (List Char)) :
    joinSegs (s :: t :: r2) = s ++ '/' :: joinSegs (t :: r2) := rfl

theorem joinSegs_chars (st : List (List Char)) {c : Char}
    (hc : c ∈ joinSegs st) : c = '/' ∨ ∃ s ∈ st, c ∈ s := by
  induction st with
  | nil => simp [joinSegs] at hc
  | cons s rest ih =>
    cases rest with
    | nil =>
      rw [joinSegs_singleton] at hc
      exact Or.inr ⟨s, List.mem_cons_self s [], hc⟩
    | cons t r2 =>
      rw [joinSegs_cons_cons] at hc
      rcases List.mem_append.mp hc with h1 | h1
      · exact Or.inr ⟨s, List.mem_cons_self s _, h1⟩
      · rcases List.mem_cons.mp h1 with rfl | h1
        · exact Or.inl rfl
        · rcases ih h1 with h2 | ⟨u, hu, hcu⟩
          · exact Or.inl h2
          · exact Or.inr ⟨u, List.mem_cons_of_mem s hu, hcu⟩

theorem filter_isRealSeg_of_good (st : List (List Char))
    (h : ∀ s ∈ st, goodSeg s) : st.filter isRealSeg = st := by
  rw [List.filter_eq_self]
  intro s hs
  have hg := h s hs
  simp [isRealSeg, bne_iff_ne, hg.1, hg.2.1]

theorem cleanSegs_self (rooted : Bool) (st : List (List Char))
    (h : goodStack rooted st) : cleanSegs rooted st = st := by
  rw [cleanSegs, filter_isRealSeg_of_good st h.1,
    foldl_cleanStep_self rooted st h]

theorem cleanSegs_cons_nil (rooted : Bool) (segs : List (List Char)) :
    cleanSegs rooted ([] :: segs) = cleanSegs rooted segs := by
  rw [cleanSegs, cleanSegs, List.filter_cons]
  simp [isRealSeg]

theorem goPathClean_renderStack (rooted : Bool) (st : List (List Char))
    (h : goodStack rooted st) (hne : rooted = false → st ≠ []) :
    goPathClean (renderStack rooted st) = renderStack rooted st := by
  have hslash : ∀ s ∈ st, '/' ∉ s := fun s hs => (h.1 s hs).2.2.1
  cases rooted with
  | true =>
    have hdata : (renderStack true st).data = '/' :: joinSegs st := rfl
    have hne2 : renderStack true st ≠ "" := by
      intro he
      have hd := congrArg String.data he
      rw [hdata] at hd
      simp at hd
    have hroot : isRooted (renderStack true st).data = true := rfl
    have hstack : cleanSegs true (splitSegs (renderStack true st).data) = st := by
      rw [hdata]
      cases st with
      | nil => rfl
      | cons s rest =>
        have h1 : splitSegs ('/' :: joinSegs (s :: rest)) =
            [] :: splitSegs (joinSegs (s :: rest)) := by
          rw [splitSegs, if_pos rfl]
        rw [h1, splitSegs_joinSegs (s :: rest) (List.cons_ne_nil s rest) hslash,
          cleanSegs_cons_nil, cleanSegs_self true (s :: rest) h]
    simp only [goPathClean, if_neg hne2, hroot, if_pos rfl, hstack]
    rfl
  | false =>
    have hstne : st ≠ [] := hne rfl
    cases st with
    | nil => exact absurd rfl hstne
    | cons s rest =>
      have hsne : s ≠ [] := (h.1 s (List.mem_cons_self s rest)).1
      obtain ⟨c, s', rfl⟩ : ∃ c s', s = c :: s' := by
        cases s with
        | nil => exact absurd rfl hsne
        | cons c s' => exact ⟨c, s', rfl⟩
      have hcs : c ≠ '/' := by
        intro hc
        exact (h.1 (c :: s') (List.mem_cons_self _ rest)).2.2.1
          (hc ▸ List.mem_cons_self c s')
      obtain ⟨l, hl⟩ : ∃ l, joinSegs ((c :: s') :: rest) = c :: l := by
        cases rest with
        | nil => exact ⟨s', rfl⟩
        | cons t r2 => exact ⟨s' ++ '/' :: joinSegs (t :: r2), rfl⟩
      have hdata : (renderStack false ((c :: s') :: rest)).data =
          joinSegs ((c :: s') :: rest) := rfl
      have hne2 : renderStack false ((c :: s') :: rest) ≠ "" := by
        intro he
        have hd := congrArg String.data he
        rw [hdata, hl] at hd
        simp at hd
      have hroot : isRooted (renderStack false ((c :: s') :: rest)).data =
          false := by
        rw [hdata, hl, isRooted]
        exact beq_eq_false_iff_ne.mpr hcs
      have hstack : cleanSegs false
          (splitSegs (renderStack false ((c :: s') :: rest)).data) =
          (c :: s') :: rest := by
        rw [hdata, splitSegs_joinSegs ((c :: s') :: rest)
          (List.cons_ne_nil _ rest) hslash,
          cleanSegs_self false ((c :: s') :: rest) h]
      simp only [goPathClean, if_neg hne2, hroot, Bool.false_eq_true,
        if_false, hstack, if_neg (List.cons_ne_nil (c :: s') rest)]
      rfl

theorem slashify_no_backslash (p : String) :
    ∀ c ∈ (slashify p).data, c ≠ '\\' := by
  intro c hc
  have : c ∈ p.data.map (fun c => if c = '\\' then '/' else c) := hc
  obtain ⟨a, _, rfl⟩ := List.mem_map.mp this
  by_cases ha : a = '\\'
  · simp [ha]
  · simp [ha]

theorem slashify_eq_self (p : String) (h : ∀ c ∈ p.data, c ≠ '\\') :
    slashify p = p := by
  rw [slashify]
  have hm : p.data.map (fun c => if c = '\\' then '/' else c) = p.data := by
    have := List.map_congr_left (l := p.data)
      (f := fun c => if c = '\\' then '/' else c) (g := id)
      (fun a ha => by simp [h a ha])
    rw [this, List.map_id]
  rw [hm]

theorem renderStack_no_backslash (rooted : Bool) (st : List (List Char))
    (h : ∀ s ∈ st, goodSeg s) :
    ∀ c ∈ (renderStack rooted st).data, c ≠ '\\' := by
  intro c hc
  have hj : c ∈ joinSegs st → c ≠ '\\' := by
    intro hcj
    rcases joinSegs_chars st hcj with rfl | ⟨s, hs, hcs⟩
    · decide
    · intro hce
      exact (h s hs).2.2.2 (hce ▸ hcs)
  cases rooted with
  | true =>
    have : c ∈ '/' :: joinSegs st := hc
    rcases List.mem_cons.mp this with rfl | hm
    · decide
    · exact hj hm
  | false => exact hj hc

theorem renderStack_ne_dot (rooted : Bool) (st : List (List Char))
    (h : goodStack rooted st) (hne : rooted = false → st ≠ []) :
    renderStack rooted st ≠ "." := by
  intro he
  have hd := congrArg String.data he
  cases rooted with
  | true =>
    have : '/' :: joinSegs st = ['.'] := hd
    simp at this
  | false =>
    have hj : joinSegs st = ['.'] := hd
    cases st with
    | nil => exact hne rfl rfl
    | cons s rest =>
      cases rest with
      | nil =>
        rw [joinSegs_singleton] at hj
        exact (h.1 s (List.mem_cons_self s [])).2.1 hj
      | cons t r2 =>
        rw [joinSegs_cons_cons] at hj
        have hlen := congrArg List.length hj
        have hsne : s ≠ [] := (h.1 s (List.mem_cons_self s _)).1
        simp at hlen
        have : 1 ≤ s.length := by
          cases s with
          | nil => exact absurd rfl hsne
          | cons a b => simp
        omega

theorem goPathClean_eq_renderStack (p : String) (hp : p ≠ "")
    (hbs : ∀ c ∈ p.data, c ≠ '\\') :
    goPathClean p = "." ∨
    ∃ rooted st, goodStack rooted st ∧ (rooted = false → st ≠ []) ∧
      goPathClean p = renderStack rooted st := by
  have hgood : goodStack (isRooted p.data)
      (cleanSegs (isRooted p.data) (splitSegs p.data)) := by
    apply cleanSegs_good
    intro s hs
    refine ⟨splitSegs_noSlash hs, fun hb => ?_⟩
    exact hbs '\\' (splitSegs_chars hs '\\' hb) rfl
  cases hroot : isRooted p.data with
  | true =>
    right
    refine ⟨true, cleanSegs true (splitSegs p.data), hroot ▸ hgood,
      fun hc => by simp at hc, ?_⟩
    simp only [goPathClean, if_neg hp, hroot, if_pos rfl]
    rfl
  | false =>
    by_cases hst : cleanSegs false (splitSegs p.data) = []
    · left
      simp only [goPathClean, if_neg hp, hroot, Bool.false_eq_true, if_false,
        hst]
      simp
    · right
      refine ⟨false, cleanSegs false (splitSegs p.data), hroot ▸ hgood,
        fun _ => hst, ?_⟩
      simp only [goPathClean, if_neg hp, hroot, Bool.false_eq_true, if_false,
        if_neg hst]
      rfl

theorem normalizeEpubPath_idem (p : String) :
    normalizeEpubPath (normalizeEpubPath p) = normalizeEpubPath p := by
  by_cases h : goPathClean (slashify p) = "."
  · have h0 : normalizeEpubPath p = "" := by
      rw [normalizeEpubPath, h]
      rfl
    rw [h0]
    rfl
  · have h0 : normalizeEpubPath p = goPathClean (slashify p) := by
      rw [normalizeEpubPath, if_neg h]
    have hqne : slashify p ≠ "" := by
      intro h0'
      apply h
      rw [h0']
      rfl
    rcases goPathClean_eq_renderStack (slashify p) hqne
        (slashify_no_backslash p) with hdot | ⟨rooted, st, hgood, hne, heq⟩
    · exact absurd hdot h
    · rw [h0, heq]
      have h1 : slashify (renderStack rooted st) = renderStack rooted st :=
        slashify_eq_self _ (renderStack_no_backslash rooted st hgood.1)
      have h2 := goPathClean_renderStack rooted st hgood hne
      have h3 := renderStack_ne_dot rooted st hgood hne
      rw [normalizeEpubPath, h1, h2, if_neg h3]

theorem joinEpubPath_eq_normalize_goPathJoin (elems : List String)
    (hne : elems ≠ []) :
    joinEpubPath elems = normalizeEpubPath (goPathJoin elems) := by
  rw [joinEpubPath, if_neg hne]
  by_cases hparts : elems.filter (fun e => e ≠ "") = []
  · simp only [hparts, if_pos rfl, goPathJoin]
    rfl
  · simp only [hparts, if_neg hparts, goPathJoin]
    have hff : (elems.filter (fun e => e ≠ "")).filter (fun e => e ≠ "") =
        elems.filter (fun e => e ≠ "") :=
      List.filter_eq_self.mpr (fun a ha => (List.mem_filter.mp ha).2)
    simp only [hff, if_false, if_neg hparts]

theorem processSpine_append (parse : List Nat → Option HtmlNode)
    (files : ZipArchive) (hm : List (String × Item))
    (idMap : List (String × String)) (l1 l2 : List String) :
    processSpine parse files hm idMap (l1 ++ l2) =
      processSpine parse files hm idMap l1 ++
        processSpine parse files hm idMap l2 := by
  induction l1 with
  | nil => rw [List.nil_append, processSpine, String.empty_append]
  | cons x xs ih =>
    rw [List.cons_append, processSpine, processSpine, ih, String.append_assoc]

theorem processItem_eq_empty_or_sep (parse : List Nat → Option HtmlNode)
    (files : ZipArchive) (hm : List (String × Item))
    (idMap : List (String × String)) (idref : String) :
    processItem parse files hm idMap idref = "" ∨
    ∃ t, processItem parse files hm idMap idref = t ++ "\n<hr />\n" := by
  cases h1 : mapLookup idMap idref with
  | none => exact Or.inl (by simp [processItem, h1])
  | some path =>
    cases h2 : readZipFile files path with
    | error e => exact Or.inl (by simp [processItem, h1, h2])
    | ok bytes =>
      cases h3 : parse bytes with
      | none => exact Or.inl (by simp [processItem, h1, h2, h3])
      | some doc =>
        exact Or.inr ⟨extractRawHTML files path hm doc,
          by simp [processItem, h1, h2, h3]⟩

theorem processSpine_eq_empty_or_sep (parse : List Nat → Option HtmlNode)
    (files : ZipArchive) (hm : List (String × Item))
    (idMap : List (String × String)) (l : List String) :
    processSpine parse files hm idMap l = "" ∨
    ∃ u, processSpine parse files hm idMap l = u ++ "\n<hr />\n" := by
  induction l with
  | nil => exact Or.inl rfl
  | cons x xs ih =>
    rcases processItem_eq_empty_or_sep parse files hm idMap x with hx | ⟨t, ht⟩
    · rcases ih with h | ⟨u, hu⟩
      · exact Or.inl (by rw [processSpine, hx, h, String.empty_append])
      · exact Or.inr ⟨u, by rw [processSpine, hx, hu, String.empty_append]⟩
    · rcases ih with h | ⟨u, hu⟩
      · exact Or.inr ⟨t, by rw [processSpine, ht, h, String.append_empty]⟩
      · exact Or.inr ⟨t ++ "\n<hr />\n" ++ u,
          by rw [processSpine, ht, hu, ← String.append_assoc]⟩

theorem processSpine_eq_empty_of_items (parse : List Nat → Option HtmlNode)
    (files : ZipArchive) (hm : List (String × Item))
    (idMap : List (String × String)) (l : List String)
    (h : ∀ x ∈ l, processItem parse files hm idMap x = "") :
    processSpine parse files hm idMap l = "" := by
  induction l with
  | nil => rfl
  | cons x xs ih =>
    rw [processSpine, h x (List.mem_cons_self x xs),
      ih (fun y hy => h y (List.mem_cons_of_mem x hy)), String.empty_append]

theorem processSpine_endsWith_sep (parse : List Nat → Option HtmlNode)
    (files : ZipArchive) (hm : List (String × Item))
    (idMap : List (String × String)) (l : List String)
    (h : ∃ x ∈ l, ∃ t, processItem parse files hm idMap x = t ++ "\n<hr />\n") :
    ∃ u, processSpine parse files hm idMap l = u ++ "\n<hr />\n" := by
  induction l with
  | nil => simp at h
  | cons y ys ih =>
    rcases h with ⟨x, hx, t, ht⟩
    rcases List.mem_cons.mp hx with rfl | hmem
    · rcases processSpine_eq_empty_or_sep parse files hm idMap ys with h0 | ⟨u, hu⟩
      · exact ⟨t, by rw [processSpine, ht, h0, String.append_empty]⟩
      · exact ⟨t ++ "\n<hr />\n" ++ u,
          by rw [processSpine, ht, hu, ← String.append_assoc]⟩
    · rcases ih ⟨x, hmem, t, ht⟩ with ⟨u, hu⟩
      exact ⟨processItem parse files hm idMap y ++ u,
        by rw [processSpine, hu, String.append_assoc]⟩

/-! ## Claim theorems -/

/-- C7: an element node whose tag is on the denylist contributes nothing
to the output: neither the tag, its attributes, nor any descendant text
is emitted. -/
theorem denylisted_subtree_dropped (files : ZipArchive) (cfp : String)
    (hm : List (String × Item)) (tag : String)
    (attrs : List (String × String)) (children : List HtmlNode)
    (h : tag ∈ denylist) :
    renderNodeRaw files cfp hm (HtmlNode.element tag attrs children) = "" := by
  simp [renderNodeRaw, h]

/-- Witness for `denylisted_subtree_dropped` at a concrete input: a
`script` element holding text renders to the empty string. -/
theorem denylisted_subtree_dropped_witness :
    "script" ∈ denylist ∧
    renderNodeRaw [] "ch1.html" []
      (HtmlNode.element "script" [("type", "text/javascript")]
        [HtmlNode.text "alert(1)"]) = "" :=
  ⟨by decide,
    denylisted_subtree_dropped [] "ch1.html" [] "script"
      [("type", "text/javascript")] [HtmlNode.text "alert(1)"] (by decide)⟩

/-- C8: the open tag of every emitted element carries exactly the
attributes whose key is not `class`, each rendered as its key and its
markup-escaped value; and a non-denylisted, non-`img` element is emitted
as that open tag, its rewritten children and a close tag. -/
theorem class_attribute_stripped :
    (∀ tag attrs, openTagString tag attrs =
      "<" ++ tag ++ attrsString (attrs.filter (fun a => a.1 ≠ "class")) ++ ">") ∧
    (∀ a : String × String, a.1 ≠ "class" →
      attrString a = " " ++ a.1 ++ "=\x22" ++ escapeString a.2 ++ "\x22") ∧
    (∀ files cfp hm tag attrs children, tag ∉ denylist → tag ≠ "img" →
      renderNodeRaw files cfp hm (HtmlNode.element tag attrs children) =
        openTagString tag attrs ++ renderNodes files cfp hm children ++
          ("</" ++ tag ++ ">")) := by
  refine ⟨?_, ?_, ?_⟩
  · intro tag attrs
    have h : ∀ l : List (String × String),
        attrsString l = attrsString (l.filter (fun a => a.1 ≠ "class")) := by
      intro l
      induction l with
      | nil => rfl
      | cons a rest ih =>
        by_cases hc : a.1 = "class"
        · simp [attrsString, attrString, hc, ih]
        · simp [attrsString, List.filter_cons, hc, ih]
    rw [openTagString, h attrs]
  · intro a ha
    simp [attrString, ha]
  · intro files cfp hm tag attrs children hden himg
    have hb : (tag == "img") = false := by simpa using himg
    simp [renderNodeRaw, hden, himg, hb]

/-- Witness for `class_attribute_stripped` at a concrete input: a `p`
element with a `class` attribute keeps `id` but loses `class`. -/
theorem class_attribute_stripped_witness :
    "p" ∉ denylist ∧ "p" ≠ "img" ∧
    renderNodeRaw [] "ch1.html" []
      (HtmlNode.element "p" [("class", "big"), ("id", "x")]
        [HtmlNode.text "hi"]) = "<p id=\x22x\x22>hi</p>" := by
  refine ⟨by decide, by decide, ?_⟩
  have h := class_attribute_stripped.2.2 [] "ch1.html" [] "p"
    [("class", "big"), ("id", "x")] [HtmlNode.text "hi"] (by decide) (by decide)
  rw [h]
  rfl

/-- C2: a document without a `body` element contributes nothing to the
rewriter's output; when a `body` element is found, exactly its children
are rewritten and the `body` wrapper tag itself is never emitted. -/
theorem body_extraction_spec (files : ZipArchive) (cfp : String)
    (hm : List (String × Item)) (n : HtmlNode) :
    (hasBodyElem n = false → extractRawHTML files cfp hm n = "") ∧
    (∀ attrs children, findBody n = some (attrs, children) →
      extractRawHTML files cfp hm n = renderNodes files cfp hm children) := by
  constructor
  · intro h
    have hn : findBody n = none := (findBody_eq_none_iff n).mpr h
    simp [extractRawHTML, hn]
  · intro attrs children h
    simp [extractRawHTML, h]

/-- Witness for `body_extraction_spec`: a body-less document extracts to
the empty string, and a document with a body extracts exactly the body's
children (here, escaped text) with no `body` tag. -/
theorem body_extraction_spec_witness :
    hasBodyElem (HtmlNode.document [HtmlNode.element "html" [] []]) = false ∧
    extractRawHTML [] "ch1.html" []
      (HtmlNode.document [HtmlNode.element "html" [] []]) = "" ∧
    findBody (HtmlNode.document [HtmlNode.element "html" []
        [HtmlNode.element "body" [("class", "b")] [HtmlNode.text "a<b"]]]) =
      some ([("class", "b")], [HtmlNode.text "a<b"]) ∧
    extractRawHTML [] "ch1.html" []
      (HtmlNode.document [HtmlNode.element "html" []
        [HtmlNode.element "body" [("class", "b")] [HtmlNode.text "a<b"]]]) =
      "a&lt;b" := by
  refine ⟨by decide, ?_, by rfl, ?_⟩
  · exact (body_extraction_spec [] "ch1.html" []
      (HtmlNode.document [HtmlNode.element "html" [] []])).1 (by decide)
  · have h := (body_extraction_spec [] "ch1.html" []
      (HtmlNode.document [HtmlNode.element "html" []
        [HtmlNode.element "body" [("class", "b")] [HtmlNode.text "a<b"]]])).2
      [("class", "b")] [HtmlNode.text "a<b"] (by rfl)
    rw [h]
    rfl

/-- C3: `readZipFile` rejects a normalized path with a leading `..`
without consulting the entry list at all (the result is the same for
every archive), reports not-found when no entry name equals the
normalized path exactly, and returns an entry's full bytes otherwise. -/
theorem readZipFile_spec (files : ZipArchive) (p : String) :
    (hasDotDotPre (normalizeEpubPath p) = true →
      readZipFile files p = Except.error (ZipError.invalidPath p) ∧
      ∀ files2 : ZipArchive, readZipFile files2 p = readZipFile files p) ∧
    (hasDotDotPre (normalizeEpubPath p) = false →
      (∀ f ∈ files, f.1 ≠ normalizeEpubPath p) →
      readZipFile files p =
        Except.error (ZipError.notFound (normalizeEpubPath p))) ∧
    (hasDotDotPre (normalizeEpubPath p) = false →
      ∀ f ∈ files, f.1 = normalizeEpubPath p →
      ∃ bytes, readZipFile files p = Except.ok bytes ∧
        (normalizeEpubPath p, bytes) ∈ files) := by
  refine ⟨?_, ?_, ?_⟩
  · intro h
    constructor
    · simp [readZipFile, h]
    · intro files2
      simp [readZipFile, h]
  · intro h hnone
    have hfind : files.find? (fun f => f.1 == normalizeEpubPath p) = none := by
      rw [List.find?_eq_none]
      intro f hf
      simpa using hnone f hf
    simp [readZipFile, h, hfind]
  · intro h f hf hfp
    have hsome : (files.find? (fun g => g.1 == normalizeEpubPath p)).isSome := by
      rw [List.find?_isSome]
      exact ⟨f, hf, by simpa using hfp⟩
    obtain ⟨g, hg⟩ := Option.isSome_iff_exists.mp hsome
    have hgmem : g ∈ files := List.mem_of_find?_eq_some hg
    have hgp : g.1 = normalizeEpubPath p := by
      have := List.find?_some hg
      simpa using this
    refine ⟨g.2, ?_, ?_⟩
    · simp [readZipFile, h, hg]
    · rw [← hgp]
      exact hgmem

/-- Witness for `readZipFile_spec` at concrete inputs: a traversal path
is rejected on any archive, a missing entry gives not-found, and a
present entry (reached through `..` resolution inside the archive)
returns its bytes. -/
theorem readZipFile_spec_witness :
    hasDotDotPre (normalizeEpubPath "../secret") = true ∧
    readZipFile [("a", [1])] "../secret" =
      Except.error (ZipError.invalidPath "../secret") ∧
    hasDotDotPre (normalizeEpubPath "a/c") = false ∧
    readZipFile [("a/b", [7])] "a/c" =
      Except.error (ZipError.notFound "a/c") ∧
    (∃ bytes, readZipFile [("a/b", [7])] "a/x/../b" = Except.ok bytes ∧
      ("a/b", bytes) ∈ [("a/b", [7])]) := by
  refine ⟨by decide, ?_, by decide, ?_, ?_⟩
  · exact ((readZipFile_spec [("a", [1])] "../secret").1 (by decide)).1
  · exact (readZipFile_spec [("a/b", [7])] "a/c").2.1 (by decide) (by decide)
  · exact (readZipFile_spec [("a/b", [7])] "a/x/../b").2.2 (by decide)
      ("a/b", [7]) (by decide) (by decide)

/-- C1 counterexample: for an `img` whose `src` resolves to a path the
archive read fails on, the code emits nothing at all for the element —
not, as claimed, the `img` element without its `src` attribute (which
would be the string `<img>`). -/
theorem img_failure_counterexample :
    readZipFile [] (resolveEpubPath (epubDir "OEBPS/text/ch1.html")
        "missing.jpg") =
      Except.error (ZipError.notFound "OEBPS/text/missing.jpg") ∧
    renderNodeRaw [] "OEBPS/text/ch1.html" []
      (HtmlNode.element "img" [("src", "missing.jpg")] []) = "" ∧
    openTagString "img" [] = "<img>" ∧
    ("" : String) ≠ "<img>" :=
  ⟨rfl, rfl, rfl, by decide⟩

/-- C1 amended: when the archive read fails or the manifest index has no
entry for the resolved path, the rewriter emits nothing for the `img`
element at all (the whole element is dropped); the failure is non-fatal
and the siblings that follow are still rewritten. -/
theorem img_failure_drops_element (files : ZipArchive) (cfp : String)
    (hm : List (String × Item)) (attrs : List (String × String))
    (children : List HtmlNode) (v : String) (r : List (String × String))
    (hsplit : removeFirstSrc attrs = (v, r)) (hv : v ≠ "")
    (hfail : (∃ e, readZipFile files (resolveEpubPath (epubDir cfp) v) =
        Except.error e) ∨
      mapLookup hm (resolveEpubPath (epubDir cfp) v) = none) :
    renderNodeRaw files cfp hm (HtmlNode.element "img" attrs children) = "" ∧
    ∀ siblings : List HtmlNode,
      renderNodes files cfp hm
          (HtmlNode.element "img" attrs children :: siblings) =
        renderNodes files cfp hm siblings := by
  have hattrs : imgFinalAttrs files cfp hm attrs = none := by
    rcases hfail with ⟨e, he⟩ | hl
    · simp [imgFinalAttrs, hsplit, hv, he]
    · cases hres : readZipFile files (resolveEpubPath (epubDir cfp) v) with
      | error e => simp [imgFinalAttrs, hsplit, hv, hres]
      | ok bytes => simp [imgFinalAttrs, hsplit, hv, hres, hl]
  have h1 : renderNodeRaw files cfp hm
      (HtmlNode.element "img" attrs children) = "" := by
    simp [renderNodeRaw, denylist, hattrs]
  refine ⟨h1, ?_⟩
  intro siblings
  rw [renderNodes, h1, String.empty_append]

/-- Witness for `img_failure_drops_element`: the concrete missing-image
scenario, with a following sibling that is still rendered. -/
theorem img_failure_drops_element_witness :
    removeFirstSrc [("src", "missing.jpg")] = ("missing.jpg", []) ∧
    ("missing.jpg" : String) ≠ "" ∧
    (∃ e, readZipFile []
        (resolveEpubPath (epubDir "OEBPS/text/ch1.html") "missing.jpg") =
      Except.error e) ∧
    renderNodes [] "OEBPS/text/ch1.html" []
      (HtmlNode.element "img" [("src", "missing.jpg")] [] ::
        [HtmlNode.text "after"]) = "after" := by
  refine ⟨by rfl, by decide, ⟨ZipError.notFound "OEBPS/text/missing.jpg", rfl⟩, ?_⟩
  have h := img_failure_drops_element [] "OEBPS/text/ch1.html" []
    [("src", "missing.jpg")] [] "missing.jpg" [] (by rfl) (by decide)
    (Or.inl ⟨ZipError.notFound "OEBPS/text/missing.jpg", rfl⟩)
  rw [h.2 [HtmlNode.text "after"]]
  rfl

/-- C4: an `img` whose non-empty `src` resolves to a readable archive
path with a manifest entry is emitted with exactly one `src` attribute,
whose value is the `data:` URI built from the entry's media type and the
standard base64 encoding of the bytes read; the original `src` value is
gone. -/
theorem img_inlining_success (files : ZipArchive) (cfp : String)
    (hm : List (String × Item)) (attrs : List (String × String))
    (children : List HtmlNode) (v : String) (r : List (String × String))
    (bytes : List Nat) (item : Item) (d : String)
    (hsplit : removeFirstSrc attrs = (v, r)) (hv : v ≠ "")
    (huniq : ∀ a ∈ r, a.1 ≠ "src")
    (hread : readZipFile files (resolveEpubPath (epubDir cfp) v) =
      Except.ok bytes)
    (hman : mapLookup hm (resolveEpubPath (epubDir cfp) v) = some item)
    (hd : d = "data:" ++ item.mediaType ++ ";base64," ++ base64Encode bytes) :
    renderNodeRaw files cfp hm (HtmlNode.element "img" attrs children) =
      openTagString "img" (r ++ [("src", d)]) ++
        renderNodes files cfp hm children ++
        (if children.isEmpty then "" else "</img>") ∧
    (r ++ [("src", d)]).filter (fun a => a.1 == "src") = [("src", d)] ∧
    (v ≠ d → ("src", v) ∉ r ++ [("src", d)]) := by
  have hattrs : imgFinalAttrs files cfp hm attrs = some (r ++ [("src", d)]) := by
    simp [imgFinalAttrs, hsplit, hv, hread, hman, hd]
  refine ⟨?_, ?_, ?_⟩
  · cases children with
    | nil => simp [renderNodeRaw, denylist, hattrs]
    | cons c cs => simp [renderNodeRaw, denylist, hattrs]
  · rw [List.filter_append]
    have h1 : r.filter (fun a => a.1 == "src") = [] := by
      rw [List.filter_eq_nil_iff]
      intro a ha
      simpa using huniq a ha
    rw [h1]
    simp
  · intro hne hmem
    rcases List.mem_append.mp hmem with hmem | hmem
    · exact huniq _ hmem rfl
    · simp at hmem
      exact hne hmem

/-- Witness for `img_inlining_success`: the spec's image-inlining
scenario, computed to the literal data-URI output. -/
theorem img_inlining_success_witness :
    renderNodeRaw [("OEBPS/images/cover.jpg", [255, 216, 255])]
      "OEBPS/text/ch1.html"
      [("OEBPS/images/cover.jpg",
        ⟨"cover", "images/cover.jpg", "image/jpeg"⟩)]
      (HtmlNode.element "img"
        [("src", "../images/cover.jpg"), ("alt", "c")] []) =
      "<img alt=\x22c\x22 src=\x22data:image/jpeg;base64,/9j/\x22>" := by
  have h := img_inlining_success
    [("OEBPS/images/cover.jpg", [255, 216, 255])] "OEBPS/text/ch1.html"
    [("OEBPS/images/cover.jpg", ⟨"cover", "images/cover.jpg", "image/jpeg"⟩)]
    [("src", "../images/cover.jpg"), ("alt", "c")] [] "../images/cover.jpg"
    [("alt", "c")] [255, 216, 255]
    ⟨"cover", "images/cover.jpg", "image/jpeg"⟩
    "data:image/jpeg;base64,/9j/"
    (by rfl) (by decide) (by decide) (by rfl) (by rfl) (by rfl)
  rw [h.1]
  rfl

/-- C5: a per-item failure (idref absent from the manifest id map,
content file unreadable, or content unparsable) contributes nothing for
that item, and the accumulated output is exactly the output of the spine
items before it followed by the output of the spine items after it. -/
theorem spine_item_failure_skips_only_item (parse : List Nat → Option HtmlNode)
    (files : ZipArchive) (pkg : Package) (idref : String)
    (pre rest : List String)
    (hfail : mapLookup (manifestIDMap pkg) idref = none ∨
      (∃ path, mapLookup (manifestIDMap pkg) idref = some path ∧
        ∃ e, readZipFile files path = Except.error e) ∨
      (∃ path bytes, mapLookup (manifestIDMap pkg) idref = some path ∧
        readZipFile files path = Except.ok bytes ∧ parse bytes = none))
    (hspine : pkg.spine = pre ++ idref :: rest) :
    processItem parse files (manifestHrefMap pkg) (manifestIDMap pkg) idref
      = "" ∧
    processEpubContent parse pkg files =
      processSpine parse files (manifestHrefMap pkg) (manifestIDMap pkg) pre ++
        processSpine parse files (manifestHrefMap pkg) (manifestIDMap pkg)
          rest := by
  have hitem : processItem parse files (manifestHrefMap pkg)
      (manifestIDMap pkg) idref = "" := by
    rcases hfail with h1 | ⟨path, h1, e, h2⟩ | ⟨path, bytes, h1, h2, h3⟩
    · simp [processItem, h1]
    · simp [processItem, h1, h2]
    · simp [processItem, h1, h2, h3]
  refine ⟨hitem, ?_⟩
  rw [processEpubContent, hspine, processSpine_append, processSpine, hitem,
    String.empty_append]

/-- Witness for `spine_item_failure_skips_only_item`: a spine whose
first idref has no manifest entry still yields the second item's
output. -/
theorem spine_item_failure_skips_only_item_witness :
    mapLookup (manifestIDMap ⟨[⟨"c1", "ch1.html", "t"⟩], ["ghost", "c1"], ""⟩)
      "ghost" = none ∧
    processEpubContent
      (fun b => if b = [1] then
        some (HtmlNode.document [HtmlNode.element "body" [] [HtmlNode.text "one"]])
        else none)
      ⟨[⟨"c1", "ch1.html", "t"⟩], ["ghost", "c1"], ""⟩
      [("ch1.html", [1])] = "one\n<hr />\n" := by
  refine ⟨by rfl, ?_⟩
  have h := spine_item_failure_skips_only_item
    (fun b => if b = [1] then
      some (HtmlNode.document [HtmlNode.element "body" [] [HtmlNode.text "one"]])
      else none)
    [("ch1.html", [1])] ⟨[⟨"c1", "ch1.html", "t"⟩], ["ghost", "c1"], ""⟩
    "ghost" [] ["c1"] (Or.inl (by rfl)) (by rfl)
  rw [h.2]
  rfl

/-- C6: for a spine `pre ++ [r1] ++ mid ++ [r2] ++ post` in which `r1`
and `r2` both succeed and are consecutive successfully processed items
(every item of `mid` produces nothing), the output is `pre`'s output,
then `r1`'s fragment, then exactly one separator, then `r2`'s fragment,
its separator and `post`'s output — spine order preserved, no dedup. -/
theorem spine_order_and_separators (parse : List Nat → Option HtmlNode)
    (files : ZipArchive) (pkg : Package) (pre mid post : List String)
    (r1 r2 p1 p2 : String) (b1 b2 : List Nat) (d1 d2 : HtmlNode)
    (hspine : pkg.spine = pre ++ r1 :: (mid ++ r2 :: post))
    (hmid : ∀ x ∈ mid, processItem parse files (manifestHrefMap pkg)
      (manifestIDMap pkg) x = "")
    (h1 : mapLookup (manifestIDMap pkg) r1 = some p1)
    (h1r : readZipFile files p1 = Except.ok b1)
    (h1p : parse b1 = some d1)
    (h2 : mapLookup (manifestIDMap pkg) r2 = some p2)
    (h2r : readZipFile files p2 = Except.ok b2)
    (h2p : parse b2 = some d2) :
    processEpubContent parse pkg files =
      processSpine parse files (manifestHrefMap pkg) (manifestIDMap pkg) pre ++
        (extractRawHTML files p1 (manifestHrefMap pkg) d1 ++ "\n<hr />\n" ++
          (extractRawHTML files p2 (manifestHrefMap pkg) d2 ++ "\n<hr />\n" ++
            processSpine parse files (manifestHrefMap pkg) (manifestIDMap pkg)
              post)) := by
  have e1 : processItem parse files (manifestHrefMap pkg) (manifestIDMap pkg)
      r1 = extractRawHTML files p1 (manifestHrefMap pkg) d1 ++ "\n<hr />\n" := by
    simp [processItem, h1, h1r, h1p]
  have e2 : processItem parse files (manifestHrefMap pkg) (manifestIDMap pkg)
      r2 = extractRawHTML files p2 (manifestHrefMap pkg) d2 ++ "\n<hr />\n" := by
    simp [processItem, h2, h2r, h2p]
  rw [processEpubContent, hspine, processSpine_append, processSpine,
    processSpine_append, processSpine,
    processSpine_eq_empty_of_items parse files _ _ mid hmid,
    String.empty_append, e1, e2]

/-- Witness for `spine_order_and_separators`: the spec's ordering
scenario, a spine `[ch2, ghost, ch1]` whose middle idref has no manifest
entry, computed to the literal output with ch2's content first and one
separator between the two fragments. -/
theorem spine_order_and_separators_witness :
    processEpubContent
      (fun b => if b = [1] then
        some (HtmlNode.document [HtmlNode.element "body" [] [HtmlNode.text "one"]])
        else some (HtmlNode.document [HtmlNode.element "body" [] [HtmlNode.text "two"]]))
      ⟨[⟨"ch1", "ch1.html", "t"⟩, ⟨"ch2", "ch2.html", "t"⟩],
        ["ch2", "ghost", "ch1"], ""⟩
      [("ch1.html", [1]), ("ch2.html", [2])] =
      "two\n<hr />\none\n<hr />\n" := by
  have h := spine_order_and_separators
    (fun b => if b = [1] then
      some (HtmlNode.document [HtmlNode.element "body" [] [HtmlNode.text "one"]])
      else some (HtmlNode.document [HtmlNode.element "body" [] [HtmlNode.text "two"]]))
    [("ch1.html", [1]), ("ch2.html", [2])]
    ⟨[⟨"ch1", "ch1.html", "t"⟩, ⟨"ch2", "ch2.html", "t"⟩],
      ["ch2", "ghost", "ch1"], ""⟩
    [] ["ghost"] [] "ch2" "ch1" "ch2.html" "ch1.html" [2] [1]
    (HtmlNode.document [HtmlNode.element "body" [] [HtmlNode.text "two"]])
    (HtmlNode.document [HtmlNode.element "body" [] [HtmlNode.text "one"]])
    (by rfl)
    (by
      intro x hx
      have hx2 : x = "ghost" := by simpa using hx
      subst hx2
      rfl)
    (by rfl) (by rfl) (by rfl) (by rfl) (by rfl) (by rfl)
  rw [h]
  rfl

/-- C10: for a spine item that is resolved, read and parsed, the
separator `"\n<hr />\n"` is appended after the document's contribution —
also when the document has no `body` element — and a run containing at
least one such item produces output ending in the separator. -/
theorem separator_appended_per_item (parse : List Nat → Option HtmlNode)
    (files : ZipArchive) (pkg : Package) (idref path : String)
    (bytes : List Nat) (doc : HtmlNode)
    (hin : idref ∈ pkg.spine)
    (hl : mapLookup (manifestIDMap pkg) idref = some path)
    (hr : readZipFile files path = Except.ok bytes)
    (hp : parse bytes = some doc) :
    processItem parse files (manifestHrefMap pkg) (manifestIDMap pkg) idref =
      extractRawHTML files path (manifestHrefMap pkg) doc ++ "\n<hr />\n" ∧
    (findBody doc = none →
      processItem parse files (manifestHrefMap pkg) (manifestIDMap pkg) idref
        = "\n<hr />\n") ∧
    ∃ u, processEpubContent parse pkg files = u ++ "\n<hr />\n" := by
  have hitem : processItem parse files (manifestHrefMap pkg)
      (manifestIDMap pkg) idref =
      extractRawHTML files path (manifestHrefMap pkg) doc ++ "\n<hr />\n" := by
    simp [processItem, hl, hr, hp]
  refine ⟨hitem, ?_, ?_⟩
  · intro hnb
    rw [hitem]
    simp [extractRawHTML, hnb, String.empty_append]
  · exact processSpine_endsWith_sep parse files (manifestHrefMap pkg)
      (manifestIDMap pkg) pkg.spine
      ⟨idref, hin, extractRawHTML files path (manifestHrefMap pkg) doc, hitem⟩

/-- Witness for `separator_appended_per_item`: a parsed document with no
`body` element still contributes exactly one separator, and the run's
output ends in the separator. -/
theorem separator_appended_per_item_witness :
    processItem (fun _ => some (HtmlNode.document [HtmlNode.element "html" [] []]))
      [("ch1.html", [1])]
      (manifestHrefMap ⟨[⟨"c1", "ch1.html", "t"⟩], ["c1"], ""⟩)
      (manifestIDMap ⟨[⟨"c1", "ch1.html", "t"⟩], ["c1"], ""⟩) "c1" =
      "\n<hr />\n" ∧
    ∃ u, processEpubContent
      (fun _ => some (HtmlNode.document [HtmlNode.element "html" [] []]))
      ⟨[⟨"c1", "ch1.html", "t"⟩], ["c1"], ""⟩ [("ch1.html", [1])] =
      u ++ "\n<hr />\n" := by
  have h := separator_appended_per_item
    (fun _ => some (HtmlNode.document [HtmlNode.element "html" [] []]))
    [("ch1.html", [1])] ⟨[⟨"c1", "ch1.html", "t"⟩], ["c1"], ""⟩
    "c1" "ch1.html" [1] (HtmlNode.document [HtmlNode.element "html" [] []])
    (by decide) (by rfl) (by rfl) (by rfl)
  exact ⟨h.2.1 (by rfl), h.2.2⟩

/-- C9: `resolveEpubPath` equals normalizing both inputs, joining them
with the path joiner, and normalizing again; in particular the spec's
concrete resolutions hold, `..` segments crossing into a prefix of the
base included. -/
theorem resolve_normalizes_joins_normalizes :
    (∀ base rel, resolveEpubPath base rel =
      normalizeEpubPath (joinEpubPath
        [normalizeEpubPath base, normalizeEpubPath rel])) ∧
    resolveEpubPath "OEBPS/text" "../images/x.jpg" = "OEBPS/images/x.jpg" ∧
    resolveEpubPath "" "images/x.jpg" = "images/x.jpg" ∧
    resolveEpubPath "a/b/nested" "../../images/x.jpg" = "a/images/x.jpg" := by
  refine ⟨?_, by rfl, by rfl, by rfl⟩
  intro base rel
  rw [show resolveEpubPath base rel = normalizeEpubPath (goPathJoin
      [normalizeEpubPath base, normalizeEpubPath rel]) from rfl,
    joinEpubPath_eq_normalize_goPathJoin _ (List.cons_ne_nil _ _),
    normalizeEpubPath_idem]

end Epub2Html
